import Mathlib

/-!
Verification development for the `ryuk` rich-text core:
a byte-addressed text container (`src/crates/text/src/text.rs`, rope modelled
as a list of bytes), a format-span overlay (`src/crates/buffer/src/format_span.rs`
and `src/crates/buffer/src/buffer.rs`), and the vertical movement functions
(`src/crates/editor/src/movement.rs`).

Modelling conventions:
* Text is a `List Nat` of bytes; the newline byte is `10`, carriage return `13`.
  ropey's line indexing is modelled directly: a rope has `countNL + 1` lines,
  each line including its trailing newline byte.
* Rust `usize` is `Nat`; `isize` deltas are `Int`.  All subtractions in the
  source are guarded by the surrounding branch conditions, so truncated `Nat`
  subtraction agrees with `usize` arithmetic on those paths.
* Rust `Range<usize>` is `ByteRange` with fields `start` and `stop`
  (`end` is a Lean keyword).  `Range::is_empty` is `stop ≤ start`,
  `Range::len` is `stop - start`.
* `Vec::sort_by_key` is a stable sort; it is modelled by Mathlib's
  `List.insertionSort`, which is likewise stable for the `≤`-by-key relation
  (any two stable sorts by the same key coincide), and which computes.
-/

abbrev Bytes := List Nat

/-- A `(row, column)` position, from `TextPoint` in `src/crates/text/src/text.rs`. -/
structure TextPoint where
  row : Nat
  column : Nat
deriving DecidableEq

/-- Number of newline bytes, giving ropey's line structure. -/
def TextBuffer.countNL (l : Bytes) : Nat := l.countP (fun b => decide (b = 10))

/-- `Rope::len_bytes`. -/
def TextBuffer.len (l : Bytes) : Nat := l.length

/-- `Rope::len_lines`: one more than the number of newline bytes
(the fragment after the last newline counts as a line even when empty). -/
def TextBuffer.len_lines (l : Bytes) : Nat := TextBuffer.countNL l + 1

/-- `Rope::byte_to_line`: the line containing a byte offset is the number of
newlines strictly before it. -/
def TextBuffer.byte_to_line (l : Bytes) (o : Nat) : Nat := TextBuffer.countNL (l.take o)

/-- `Rope::line_to_byte`: the byte offset at which line `r` starts, i.e. the
position just after the `r`-th newline.  For `r ≥ len_lines` this returns the
total length (ropey would panic there; no caller in the source reaches it). -/
def TextBuffer.line_to_byte : Bytes → Nat → Nat
  | _, 0 => 0
  | [], _ + 1 => 0
  | b :: rest, r + 1 => 1 + TextBuffer.line_to_byte rest (if b = 10 then r else r + 1)

/-- `Rope::line(r).len_bytes()`: the byte length of line `r`, including its
trailing newline byte when present. -/
def TextBuffer.ropeLineLen (l : Bytes) (r : Nat) : Nat :=
  TextBuffer.line_to_byte l (r + 1) - TextBuffer.line_to_byte l r

/-- `TextBuffer::max_point` from `src/crates/text/src/text.rs`. -/
def TextBuffer.max_point (l : Bytes) : TextPoint :=
  if TextBuffer.len_lines l = 0 then ⟨0, 0⟩
  else
    let lastLine := TextBuffer.len_lines l - 1
    ⟨lastLine, TextBuffer.ropeLineLen l lastLine⟩

/-- `TextBuffer::offset_to_point`: clamp the offset to the length, then take
the containing row and the column within it. -/
def TextBuffer.offset_to_point (l : Bytes) (offset : Nat) : TextPoint :=
  let o := min offset (TextBuffer.len l)
  let row := TextBuffer.byte_to_line l o
  ⟨row, o - TextBuffer.line_to_byte l row⟩

/-- `TextBuffer::point_to_offset`: clamp the row to the last line and the
column to that line's byte length (the ropey line, including its newline). -/
def TextBuffer.point_to_offset (l : Bytes) (p : TextPoint) : Nat :=
  if TextBuffer.len_lines l = 0 then 0
  else
    let row := min p.row (TextBuffer.len_lines l - 1)
    let lineStart := TextBuffer.line_to_byte l row
    let column := min p.column (TextBuffer.ropeLineLen l row)
    lineStart + column

/-- The raw bytes of line `i`, including the trailing newline. -/
def TextBuffer.lineBytes (l : Bytes) (i : Nat) : Bytes :=
  (l.drop (TextBuffer.line_to_byte l i)).take (TextBuffer.ropeLineLen l i)

/-- The trailing-newline stripping done by `TextBuffer::line`:
drop a final `\n`, and then a final `\r` if present. -/
def TextBuffer.stripNewline (ln : Bytes) : Bytes :=
  if ln.getLast? == some 10 then
    let ln := ln.dropLast
    if ln.getLast? == some 13 then ln.dropLast else ln
  else ln

/-- `TextBuffer::line`: `none` out of range, else the line without its
terminator. -/
def TextBuffer.line (l : Bytes) (i : Nat) : Option Bytes :=
  if i ≥ TextBuffer.len_lines l then none
  else some (TextBuffer.stripNewline (TextBuffer.lineBytes l i))

/-- `TextBuffer::line_len`: stripped line length, `0` out of range. -/
def TextBuffer.line_len (l : Bytes) (row : Nat) : Nat :=
  ((TextBuffer.line l row).map List.length).getD 0

/-- `Rope::insert` at a byte offset. -/
def TextBuffer.insert (l : Bytes) (offset : Nat) (t : Bytes) : Bytes :=
  l.take offset ++ t ++ l.drop offset

/-- A half-open byte range; Rust `Range<usize>` (`stop` models `end`). -/
@[ext]
structure ByteRange where
  start : Nat
  stop : Nat
deriving DecidableEq

def ByteRange.isEmpty (r : ByteRange) : Bool := r.stop ≤ r.start

def ByteRange.len (r : ByteRange) : Nat := r.stop - r.start

/-- `Rope::remove` over a byte range. -/
def TextBuffer.remove (l : Bytes) (r : ByteRange) : Bytes :=
  l.take r.start ++ l.drop r.stop

/-- `FormatSpan` from `src/crates/buffer/src/format_span.rs`. -/
@[ext]
structure FormatSpan where
  range : ByteRange
  bold : Option Bool
  italic : Option Bool
  underline : Option Bool
deriving DecidableEq

/-- The three formatting attributes; selects among the three `Option Bool`
fields (the three Rust toggle methods are textually identical apart from
this choice of field). -/
inductive Attr where
  | bold
  | italic
  | underline
deriving DecidableEq

def FormatSpan.attr (s : FormatSpan) : Attr → Option Bool
  | .bold => s.bold
  | .italic => s.italic
  | .underline => s.underline

/-- `FormatSpan::overlaps`. -/
def FormatSpan.overlaps (s : FormatSpan) (other : ByteRange) : Bool :=
  decide (s.range.start < other.stop) && decide (s.range.stop > other.start)

/-- `FormatSpan::shift_by_delta`, translated branch by branch (the source's
`delete_len` binding, `(-delta) as usize`, is inlined as `(-delta).toNat`, and
`delete_end` as `offset + (-delta).toNat`). -/
def FormatSpan.shift_by_delta (s : FormatSpan) (offset : Nat) (delta : Int) : FormatSpan :=
  if delta > 0 then
    if offset ≤ s.range.start then
      { s with range := ⟨s.range.start + delta.toNat, s.range.stop + delta.toNat⟩ }
    else if offset < s.range.stop then
      { s with range := ⟨s.range.start, s.range.stop + delta.toNat⟩ }
    else s
  else if delta < 0 then
    if offset + (-delta).toNat ≤ s.range.start then
      { s with range := ⟨s.range.start - (-delta).toNat, s.range.stop - (-delta).toNat⟩ }
    else if offset ≥ s.range.stop then s
    else if offset ≤ s.range.start ∧ offset + (-delta).toNat ≥ s.range.stop then
      { s with range := ⟨offset, offset⟩ }
    else if offset ≤ s.range.start ∧ offset + (-delta).toNat < s.range.stop then
      { s with range := ⟨offset, s.range.stop - (-delta).toNat⟩ }
    else if offset > s.range.start ∧ offset + (-delta).toNat ≥ s.range.stop then
      { s with range := ⟨s.range.start, offset⟩ }
    else
      { s with range := ⟨s.range.start, s.range.stop - (-delta).toNat⟩ }
  else s

/-- The span pushed by a toggle: range `r`, the toggled attribute `Some(true)`,
the other two fields `None`. -/
def attrSpan (a : Attr) (r : ByteRange) : FormatSpan :=
  match a with
  | .bold => ⟨r, some true, none, none⟩
  | .italic => ⟨r, none, some true, none⟩
  | .underline => ⟨r, none, none, some true⟩

/-- The `try_fold` sweep inside `Buffer::is_formatted_with`: over clipped
intervals, accept an interval only if it starts at or before the cursor,
advancing the cursor to the interval's end when further. -/
def sweepCoverage : List (Nat × Nat) → Nat → Option Nat
  | [], cursor => some cursor
  | (s, e) :: rest, cursor =>
      if s ≤ cursor then sweepCoverage rest (max cursor e) else none

/-- `Buffer::is_formatted_with`: `false` on an empty range; otherwise clip the
spans satisfying the predicate to the range, sort by clipped start, and sweep
for gap-free coverage reaching the range's end. -/
def is_formatted_with (spans : List FormatSpan) (range : ByteRange)
    (p : FormatSpan → Option Bool) : Bool :=
  if range.isEmpty then false
  else
    let coverage := (spans.filter (fun s => p s == some true && s.overlaps range)).map
      (fun s => (max s.range.start range.start, min s.range.stop range.stop))
    let sorted := coverage.insertionSort (fun x y => x.1 ≤ y.1)
    match sweepCoverage sorted range.start with
    | some cursor => decide (cursor ≥ range.stop)
    | none => false

/-- The `flat_map` step shared by the three toggles: a span satisfying
`shouldSplit` is replaced by its (up to two) remainders outside `range`,
fields otherwise unchanged; any other span passes through untouched. -/
def splitRemainders (range : ByteRange) (shouldSplit : FormatSpan → Bool)
    (spans : List FormatSpan) : List FormatSpan :=
  spans.flatMap (fun s =>
    if !shouldSplit s then [s]
    else
      (if s.range.start < range.start then
        [{ s with range := ⟨s.range.start, range.start⟩ }] else []) ++
      (if s.range.stop > range.stop then
        [{ s with range := ⟨range.stop, s.range.stop⟩ }] else []))

/-- The split-candidate test of the toggles: overlap with the toggled range,
and the toggled attribute exactly `Some(true)` when the range was fully
covered, any `Some` when it was not. -/
def shouldSplitSpan (range : ByteRange) (a : Attr) (isFully : Bool)
    (s : FormatSpan) : Bool :=
  s.overlaps range &&
    (if isFully then s.attr a == some true else (s.attr a).isSome)

/-- The common body of `Buffer::toggle_bold` / `toggle_italic` /
`toggle_underline` (textually identical in the source apart from the attribute
field): coverage test, split of candidate spans into their out-of-range
remainders, and — when the range was not fully covered — push of the new span
followed by a stable re-sort by range start. -/
def toggleSpans (spans : List FormatSpan) (range : ByteRange) (a : Attr) :
    List FormatSpan :=
  let isFully := is_formatted_with spans range (fun s => s.attr a)
  let pieces := splitRemainders range (shouldSplitSpan range a isFully) spans
  if !isFully then
    (pieces ++ [attrSpan a range]).insertionSort
      (fun x y => x.range.start ≤ y.range.start)
  else pieces

/-- `Buffer` from `src/crates/buffer/src/buffer.rs`. -/
structure Buffer where
  text : Bytes
  format_spans : List FormatSpan
deriving DecidableEq

def Buffer.len (b : Buffer) : Nat := TextBuffer.len b.text

def Buffer.line (b : Buffer) (i : Nat) : Option Bytes := TextBuffer.line b.text i

def Buffer.line_len (b : Buffer) (row : Nat) : Nat := TextBuffer.line_len b.text row

def Buffer.max_point (b : Buffer) : TextPoint := TextBuffer.max_point b.text

def Buffer.line_count (b : Buffer) : Nat := b.max_point.row + 1

def Buffer.offset_to_point (b : Buffer) (offset : Nat) : TextPoint :=
  TextBuffer.offset_to_point b.text offset

def Buffer.point_to_offset (b : Buffer) (p : TextPoint) : Nat :=
  TextBuffer.point_to_offset b.text p

/-- `Buffer::insert`: edit the text, then re-anchor every span by the
positive delta. -/
def Buffer.insert (b : Buffer) (offset : Nat) (t : Bytes) : Buffer :=
  { text := TextBuffer.insert b.text offset t,
    format_spans :=
      b.format_spans.map (fun s => s.shift_by_delta offset (t.length : Int)) }

/-- `Buffer::remove`: edit the text, re-anchor every span by the negative
delta, then drop the spans whose range became empty. -/
def Buffer.remove (b : Buffer) (r : ByteRange) : Buffer :=
  { text := TextBuffer.remove b.text r,
    format_spans :=
      (b.format_spans.map
        (fun s => s.shift_by_delta r.start (-(r.len : Int)))).filter
        (fun s => !s.range.isEmpty) }

/-- `Buffer::replace`: `remove` then `insert` at the range's start. -/
def Buffer.replace (b : Buffer) (r : ByteRange) (t : Bytes) : Buffer :=
  (b.remove r).insert r.start t

def Buffer.toggleAttr (b : Buffer) (a : Attr) (range : ByteRange) : Buffer :=
  { b with format_spans := toggleSpans b.format_spans range a }

def Buffer.toggle_bold (b : Buffer) (range : ByteRange) : Buffer :=
  b.toggleAttr .bold range

def Buffer.toggle_italic (b : Buffer) (range : ByteRange) : Buffer :=
  b.toggleAttr .italic range

def Buffer.toggle_underline (b : Buffer) (range : ByteRange) : Buffer :=
  b.toggleAttr .underline range

/-- `SelectionGoal` from `src/crates/buffer/src/selection.rs`.  The source
stores the horizontal position as an `f64`, but only ever stores exact
`usize` column values into it and only converts them back to `usize`, so the
column is modelled as `Nat`. -/
inductive SelectionGoal where
  | none
  | horizontalPosition (col : Nat)
deriving DecidableEq

/-- `movement::up` from `src/crates/editor/src/movement.rs`. -/
def Movement.up (b : Buffer) (offset : Nat) (goal : SelectionGoal) :
    Nat × SelectionGoal :=
  let currentPoint := b.offset_to_point offset
  let goalColumn := match goal with
    | .none => currentPoint.column
    | .horizontalPosition c => c
  if currentPoint.row = 0 then
    (b.point_to_offset ⟨0, 0⟩, .horizontalPosition goalColumn)
  else
    let prevRow := currentPoint.row - 1
    let prevLineLen := b.line_len prevRow
    let newColumn := min goalColumn prevLineLen
    (b.point_to_offset ⟨prevRow, newColumn⟩, .horizontalPosition goalColumn)

/-- `movement::down` from `src/crates/editor/src/movement.rs`. -/
def Movement.down (b : Buffer) (offset : Nat) (goal : SelectionGoal) :
    Nat × SelectionGoal :=
  let currentPoint := b.offset_to_point offset
  let lineCount := b.line_count
  let goalColumn := match goal with
    | .none => currentPoint.column
    | .horizontalPosition c => c
  if currentPoint.row ≥ lineCount - 1 then
    let lastLineLen := b.line_len currentPoint.row
    (b.point_to_offset ⟨currentPoint.row, lastLineLen⟩,
      .horizontalPosition goalColumn)
  else
    let nextRow := currentPoint.row + 1
    let nextLineLen := b.line_len nextRow
    let newColumn := min goalColumn nextLineLen
    (b.point_to_offset ⟨nextRow, newColumn⟩, .horizontalPosition goalColumn)

/-- A span covers a byte offset. -/
def FormatSpan.covers (s : FormatSpan) (i : Nat) : Prop :=
  s.range.start ≤ i ∧ i < s.range.stop

instance (s : FormatSpan) (i : Nat) : Decidable (s.covers i) := by
  unfold FormatSpan.covers; infer_instance

/-- Effective formatting: attribute `a` evaluates true at offset `i` iff some
span in the collection asserts it and covers `i` (OR across spans). -/
def attrAt (spans : List FormatSpan) (a : Attr) (i : Nat) : Prop :=
  ∃ s ∈ spans, s.attr a = some true ∧ s.covers i

instance (spans : List FormatSpan) (a : Attr) (i : Nat) :
    Decidable (attrAt spans a i) := by
  unfold attrAt; infer_instance

/-- The collection is sorted by span range start. -/
def sortedByStart (spans : List FormatSpan) : Prop :=
  spans.Pairwise (fun x y => x.range.start ≤ y.range.start)

instance (spans : List FormatSpan) : Decidable (sortedByStart spans) := by
  unfold sortedByStart; infer_instance

example : TextBuffer.offset_to_point [97, 98, 10, 99, 100] 4 = ⟨1, 1⟩ := by decide

example : TextBuffer.point_to_offset [97, 98, 10, 99, 100] ⟨0, 5⟩ = 3 := by decide

example :
    (Buffer.mk [] []).toggle_bold ⟨2, 2⟩ =
      ⟨[], [⟨⟨2, 2⟩, some true, none, none⟩]⟩ := by decide

/-- The insert remapping rule exactly as the spec states it: if the insertion
offset is at or before the span's start, shift both bounds by `+L`; else if
strictly inside, grow the end by `+L`; else leave unchanged. -/
def insertRule (s : FormatSpan) (offset L : Nat) : FormatSpan :=
  if offset ≤ s.range.start then
    { s with range := ⟨s.range.start + L, s.range.stop + L⟩ }
  else if offset < s.range.stop then
    { s with range := ⟨s.range.start, s.range.stop + L⟩ }
  else s

/-- The six-case remove remapping rule exactly as the spec states it, cases
tried in the spec's order, for a deletion `[offset, offset+L)`. -/
def removeRule (s : FormatSpan) (offset L : Nat) : FormatSpan :=
  if offset + L ≤ s.range.start then
    { s with range := ⟨s.range.start - L, s.range.stop - L⟩ }
  else if offset ≥ s.range.stop then s
  else if offset ≤ s.range.start ∧ offset + L ≥ s.range.stop then
    { s with range := ⟨offset, offset⟩ }
  else if offset ≤ s.range.start then
    { s with range := ⟨offset, s.range.stop - L⟩ }
  else if offset + L ≥ s.range.stop then
    { s with range := ⟨s.range.start, offset⟩ }
  else
    { s with range := ⟨s.range.start, s.range.stop - L⟩ }

theorem shift_insert_eq_rule (s : FormatSpan) (offset L : Nat) :
    s.shift_by_delta offset (L : Int) = insertRule s offset L := by
  unfold FormatSpan.shift_by_delta insertRule
  rw [Int.toNat_natCast]
  split_ifs <;>
    first
      | rfl
      | (refine FormatSpan.ext (ByteRange.ext ?_ ?_) rfl rfl rfl <;> simp <;> omega)

theorem shift_remove_eq_rule (s : FormatSpan) (offset L : Nat) :
    s.shift_by_delta offset (-(L : Int)) = removeRule s offset L := by
  unfold FormatSpan.shift_by_delta removeRule
  have hL : (-(-(L : Int))).toNat = L := by simp
  rw [hL]
  split_ifs <;>
    first
      | rfl
      | (refine FormatSpan.ext (ByteRange.ext ?_ ?_) rfl rfl rfl <;> simp <;> omega)

/-- C10: the attribute-toggle operations never modify the text.  For every
buffer state and range, after any of `toggle_bold`, `toggle_italic`,
`toggle_underline` the text content, byte length, line count, and the text of
every line are exactly unchanged; only the format-span collection may change. -/
theorem toggles_preserve_text (b : Buffer) (r : ByteRange) :
    (b.toggle_bold r).text = b.text ∧
    (b.toggle_italic r).text = b.text ∧
    (b.toggle_underline r).text = b.text ∧
    (∀ a : Attr,
      (b.toggleAttr a r).text = b.text ∧
      (b.toggleAttr a r).len = b.len ∧
      (b.toggleAttr a r).line_count = b.line_count ∧
      ∀ i, (b.toggleAttr a r).line i = b.line i) :=
  ⟨rfl, rfl, rfl, fun _ => ⟨rfl, rfl, rfl, fun _ => rfl⟩⟩

/-- C4: on `insert(offset, text)` of byte length L every span is remapped by
exactly the rule `insertRule` (shift both bounds when `offset ≤ start`, grow
the end when `offset < end`, else unchanged); in particular a span entirely
after the insertion point shifts by +L, and a nonempty span entirely before it
is unchanged. -/
theorem insert_remaps_spans :
    (∀ (s : FormatSpan) (offset L : Nat),
        s.shift_by_delta offset (L : Int) = insertRule s offset L) ∧
    (∀ (b : Buffer) (offset : Nat) (t : Bytes),
        (b.insert offset t).format_spans =
          b.format_spans.map (fun s => insertRule s offset t.length)) ∧
    (∀ (s : FormatSpan) (offset L : Nat), offset ≤ s.range.start →
        (s.shift_by_delta offset (L : Int)).range =
          ⟨s.range.start + L, s.range.stop + L⟩) ∧
    (∀ (s : FormatSpan) (offset L : Nat),
        s.range.start < s.range.stop → s.range.stop ≤ offset →
        s.shift_by_delta offset (L : Int) = s) := by
  refine ⟨shift_insert_eq_rule, ?_, ?_, ?_⟩
  · intro b offset t
    simp [Buffer.insert, shift_insert_eq_rule]
  · intro s offset L h
    rw [shift_insert_eq_rule]
    simp [insertRule, h]
  · intro s offset L h1 h2
    rw [shift_insert_eq_rule]
    unfold insertRule
    split_ifs <;> first | rfl | omega

/-- Witness for `insert_remaps_spans`: the hypothesis-bearing conjuncts applied
at concrete spans. -/
theorem insert_remaps_spans_witness :
    (2 ≤ 5 ∧
      ((FormatSpan.mk ⟨5, 8⟩ (some true) none none).shift_by_delta 2
        ((3 : Nat) : Int)).range = ⟨8, 11⟩) ∧
    (4 < 6 ∧ 6 ≤ 9 ∧
      (FormatSpan.mk ⟨4, 6⟩ none (some true) none).shift_by_delta 9
        ((3 : Nat) : Int) = FormatSpan.mk ⟨4, 6⟩ none (some true) none) :=
  ⟨⟨by decide, insert_remaps_spans.2.2.1 (FormatSpan.mk ⟨5, 8⟩ (some true) none none)
      2 3 (by decide)⟩,
   ⟨by decide, by decide, insert_remaps_spans.2.2.2
      (FormatSpan.mk ⟨4, 6⟩ none (some true) none) 9 3 (by decide) (by decide)⟩⟩

/-- C3: on `remove(range)` of byte length L every span is remapped by exactly
the six-case rule `removeRule` (cases tried in the claim's order), afterwards
every span whose range became empty is dropped; instance: a bold span `[4,16)`
is removed entirely by `remove [4,16)` and shifts to `[0,12)` under
`remove [0,4)`. -/
theorem remove_remaps_spans :
    (∀ (s : FormatSpan) (offset L : Nat),
        s.shift_by_delta offset (-(L : Int)) = removeRule s offset L) ∧
    (∀ (b : Buffer) (r : ByteRange),
        (b.remove r).format_spans =
          (b.format_spans.map (fun s => removeRule s r.start r.len)).filter
            (fun s => !s.range.isEmpty)) ∧
    ((Buffer.mk (List.replicate 16 97)
        [FormatSpan.mk ⟨4, 16⟩ (some true) none none]).remove
          ⟨4, 16⟩).format_spans = [] ∧
    ((Buffer.mk (List.replicate 16 97)
        [FormatSpan.mk ⟨4, 16⟩ (some true) none none]).remove
          ⟨0, 4⟩).format_spans = [FormatSpan.mk ⟨0, 12⟩ (some true) none none] := by
  refine ⟨shift_remove_eq_rule, ?_, by decide, by decide⟩
  intro b r
  simp [Buffer.remove, shift_remove_eq_rule]

/-- C5: `replace(range, text)` is exactly `remove(range)` followed by
`insert(range.start, text)`; a replace whose range equals a nonempty span's
range collapses that span to empty (so it is dropped), while a partly
overlapped span survives per the remapping rules. -/
theorem replace_is_remove_insert :
    (∀ (b : Buffer) (r : ByteRange) (t : Bytes),
        b.replace r t = (b.remove r).insert r.start t) ∧
    (∀ (s : FormatSpan) (r : ByteRange), s.range = r → r.start < r.stop →
        (s.shift_by_delta r.start (-(r.len : Int))).range.isEmpty = true) ∧
    ((Buffer.mk (List.replicate 16 97)
        [FormatSpan.mk ⟨4, 16⟩ (some true) none none]).replace
          ⟨4, 16⟩ [120, 121, 122]).format_spans = [] ∧
    ((Buffer.mk (List.replicate 16 97)
        [FormatSpan.mk ⟨4, 16⟩ (some true) none none]).replace
          ⟨4, 8⟩ [122]).format_spans =
      [FormatSpan.mk ⟨5, 13⟩ (some true) none none] := by
  refine ⟨fun _ _ _ => rfl, ?_, by decide, by decide⟩
  intro s r hs hne
  rw [shift_remove_eq_rule]
  unfold removeRule
  subst hs
  simp only [ByteRange.len]
  split_ifs <;> simp [ByteRange.isEmpty] <;> omega

/-- Witness for `replace_is_remove_insert`: the span-collapse conjunct applied
at a concrete span. -/
theorem replace_is_remove_insert_witness :
    ((FormatSpan.mk ⟨4, 16⟩ (some true) none none).range = ⟨4, 16⟩ ∧
      (4 : Nat) < 16) ∧
    ((FormatSpan.mk ⟨4, 16⟩ (some true) none none).shift_by_delta 4
        (-((ByteRange.mk 4 16).len : Int))).range.isEmpty = true :=
  ⟨⟨rfl, by decide⟩,
    replace_is_remove_insert.2.1 (FormatSpan.mk ⟨4, 16⟩ (some true) none none)
      ⟨4, 16⟩ rfl (by decide)⟩

/-- The target column of a vertical move as the claim states it: the goal when
it is `HorizontalPosition`, else the current column. -/
def resolvedColumn (b : Buffer) (o : Nat) (g : SelectionGoal) : Nat :=
  match g with
  | .none => (b.offset_to_point o).column
  | .horizontalPosition c => c

/-- C9: `up`/`down` resolve the target column (`resolvedColumn`), clamp it to
the destination line's byte length, clamp to the start/end of the same line
when already on the first/last line, and always return the resolved
`HorizontalPosition` goal; instance on the two-line buffer `"ab\ncdef\n"`. -/
theorem up_down_column_memory :
    (∀ (b : Buffer) (o : Nat) (g : SelectionGoal),
        (Movement.up b o g).2 = .horizontalPosition (resolvedColumn b o g) ∧
        (Movement.down b o g).2 = .horizontalPosition (resolvedColumn b o g)) ∧
    (∀ (b : Buffer) (o : Nat) (g : SelectionGoal),
        (b.offset_to_point o).row ≠ 0 →
        (Movement.up b o g).1 = b.point_to_offset
          ⟨(b.offset_to_point o).row - 1,
            min (resolvedColumn b o g)
              (b.line_len ((b.offset_to_point o).row - 1))⟩) ∧
    (∀ (b : Buffer) (o : Nat) (g : SelectionGoal),
        (b.offset_to_point o).row = 0 →
        (Movement.up b o g).1 = b.point_to_offset ⟨0, 0⟩) ∧
    (∀ (b : Buffer) (o : Nat) (g : SelectionGoal),
        (b.offset_to_point o).row < b.line_count - 1 →
        (Movement.down b o g).1 = b.point_to_offset
          ⟨(b.offset_to_point o).row + 1,
            min (resolvedColumn b o g)
              (b.line_len ((b.offset_to_point o).row + 1))⟩) ∧
    (∀ (b : Buffer) (o : Nat) (g : SelectionGoal),
        (b.offset_to_point o).row ≥ b.line_count - 1 →
        (Movement.down b o g).1 = b.point_to_offset
          ⟨(b.offset_to_point o).row, b.line_len ((b.offset_to_point o).row)⟩) ∧
    (Movement.down (Buffer.mk [97, 98, 10, 99, 100, 101, 102, 10] []) 1 .none =
        (4, .horizontalPosition 1) ∧
      (Buffer.mk [97, 98, 10, 99, 100, 101, 102, 10] []).offset_to_point 4 =
        ⟨1, 1⟩ ∧
      Movement.down (Buffer.mk [97, 98, 10, 99, 100, 101, 102, 10] []) 4
        (.horizontalPosition 1) = (8, .horizontalPosition 1) ∧
      (Buffer.mk [97, 98, 10, 99, 100, 101, 102, 10] []).line_len 2 = 0) := by
  refine ⟨?_, ?_, ?_, ?_, ?_, by decide, by decide, by decide, by decide⟩
  · intro b o g
    cases g <;> constructor <;>
      simp [Movement.up, Movement.down, resolvedColumn] <;>
      split_ifs <;> rfl
  · intro b o g h
    cases g <;> simp [Movement.up, resolvedColumn, h, Nat.min_comm]
  · intro b o g h
    cases g <;> simp [Movement.up, resolvedColumn, h]
  · intro b o g h
    have h2 : ¬ ((b.offset_to_point o).row ≥ b.line_count - 1) := by omega
    cases g <;> simp [Movement.down, resolvedColumn, h2, Nat.min_comm]
  · intro b o g h
    cases g <;> simp [Movement.down, resolvedColumn, h]

/-- Witness for `up_down_column_memory`: the hypothesis-bearing conjuncts
applied on the sample buffer. -/
theorem up_down_column_memory_witness :
    (((Buffer.mk [97, 98, 10, 99, 100] []).offset_to_point 4).row ≠ 0 ∧
      (Movement.up (Buffer.mk [97, 98, 10, 99, 100] []) 4 .none).1 =
        (Buffer.mk [97, 98, 10, 99, 100] []).point_to_offset
          ⟨(((Buffer.mk [97, 98, 10, 99, 100] []).offset_to_point 4).row - 1),
            min (resolvedColumn (Buffer.mk [97, 98, 10, 99, 100] []) 4 .none)
              ((Buffer.mk [97, 98, 10, 99, 100] []).line_len
                ((((Buffer.mk [97, 98, 10, 99, 100] []).offset_to_point 4).row - 1)))⟩) ∧
    (((Buffer.mk [97, 98, 10, 99, 100] []).offset_to_point 1).row = 0 ∧
      (Movement.up (Buffer.mk [97, 98, 10, 99, 100] []) 1 .none).1 =
        (Buffer.mk [97, 98, 10, 99, 100] []).point_to_offset ⟨0, 0⟩) ∧
    (((Buffer.mk [97, 98, 10, 99, 100] []).offset_to_point 1).row <
        (Buffer.mk [97, 98, 10, 99, 100] []).line_count - 1 ∧
      (Movement.down (Buffer.mk [97, 98, 10, 99, 100] []) 1 .none).1 =
        (Buffer.mk [97, 98, 10, 99, 100] []).point_to_offset
          ⟨(((Buffer.mk [97, 98, 10, 99, 100] []).offset_to_point 1).row + 1),
            min (resolvedColumn (Buffer.mk [97, 98, 10, 99, 100] []) 1 .none)
              ((Buffer.mk [97, 98, 10, 99, 100] []).line_len
                ((((Buffer.mk [97, 98, 10, 99, 100] []).offset_to_point 1).row + 1)))⟩) ∧
    (((Buffer.mk [97, 98, 10, 99, 100] []).offset_to_point 4).row ≥
        (Buffer.mk [97, 98, 10, 99, 100] []).line_count - 1 ∧
      (Movement.down (Buffer.mk [97, 98, 10, 99, 100] []) 4 .none).1 =
        (Buffer.mk [97, 98, 10, 99, 100] []).point_to_offset
          ⟨(((Buffer.mk [97, 98, 10, 99, 100] []).offset_to_point 4).row),
            (Buffer.mk [97, 98, 10, 99, 100] []).line_len
              (((Buffer.mk [97, 98, 10, 99, 100] []).offset_to_point 4).row)⟩) :=
  ⟨⟨by decide, up_down_column_memory.2.1 _ 4 .none (by decide)⟩,
   ⟨by decide, up_down_column_memory.2.2.1 _ 1 .none (by decide)⟩,
   ⟨by decide, up_down_column_memory.2.2.2.1 _ 1 .none (by decide)⟩,
   ⟨by decide, up_down_column_memory.2.2.2.2.1 _ 4 .none (by decide)⟩⟩

theorem countNL_nil : TextBuffer.countNL [] = 0 := rfl

theorem countNL_cons (b : Nat) (l : Bytes) :
    TextBuffer.countNL (b :: l) =
      TextBuffer.countNL l + (if b = 10 then 1 else 0) := by
  simp [TextBuffer.countNL, List.countP_cons]

theorem line_to_byte_zero (l : Bytes) : TextBuffer.line_to_byte l 0 = 0 := by
  cases l <;> rfl

theorem line_to_byte_cons (b : Nat) (l : Bytes) (r : Nat) :
    TextBuffer.line_to_byte (b :: l) (r + 1) =
      1 + TextBuffer.line_to_byte l (if b = 10 then r else r + 1) := rfl

theorem line_to_byte_le_len (l : Bytes) (r : Nat) :
    TextBuffer.line_to_byte l r ≤ l.length := by
  induction l generalizing r with
  | nil => cases r <;> simp [TextBuffer.line_to_byte]
  | cons b rest ih =>
    cases r with
    | zero => simp [line_to_byte_zero]
    | succ r' =>
      rw [line_to_byte_cons]
      have := ih (if b = 10 then r' else r' + 1)
      simp only [List.length_cons]
      omega

theorem byte_to_line_le (l : Bytes) (o : Nat) :
    TextBuffer.byte_to_line l o ≤ TextBuffer.countNL l :=
  List.Sublist.countP_le _ (List.take_sublist o l)

theorem line_to_byte_byte_to_line (l : Bytes) (o : Nat) (ho : o ≤ l.length) :
    TextBuffer.line_to_byte l (TextBuffer.byte_to_line l o) ≤ o ∧
    o ≤ TextBuffer.line_to_byte l (TextBuffer.byte_to_line l o + 1) := by
  induction l generalizing o with
  | nil =>
    have : o = 0 := by simpa using ho
    subst this
    simp [TextBuffer.byte_to_line, countNL_nil, line_to_byte_zero,
      TextBuffer.line_to_byte]
  | cons b rest ih =>
    cases o with
    | zero =>
      constructor
      · simp [TextBuffer.byte_to_line, countNL_nil, line_to_byte_zero]
      · exact Nat.zero_le _
    | succ o' =>
      have ho' : o' ≤ rest.length := by simpa using ho
      obtain ⟨ih1, ih2⟩ := ih o' ho'
      have hbtl : TextBuffer.byte_to_line (b :: rest) (o' + 1) =
          TextBuffer.byte_to_line rest o' + (if b = 10 then 1 else 0) := by
        simp only [TextBuffer.byte_to_line, List.take_succ_cons, countNL_cons]
      by_cases hb : b = 10
      · rw [hbtl, if_pos hb]
        constructor
        · rw [line_to_byte_cons, if_pos hb]
          omega
        · rw [line_to_byte_cons, if_pos hb]
          omega
      · rw [hbtl, if_neg hb, Nat.add_zero]
        constructor
        · cases hk : TextBuffer.byte_to_line rest o' with
          | zero => rw [line_to_byte_zero]; exact Nat.zero_le _
          | succ k =>
            rw [line_to_byte_cons, if_neg hb]
            rw [hk] at ih1
            omega
        · rw [line_to_byte_cons, if_neg hb]
          omega

/-- C8 counterexample: on the buffer `"ab\ncd"` (line 0 is `"ab"`, stripped
byte length 2), `point_to_offset ⟨0, 5⟩` clamps the column to the ropey line
length 3 — which includes the trailing newline, so the result 3 is the start
of line 1 — not to the terminator-stripped line length 2 the claim states. -/
theorem point_to_offset_clamps_including_newline :
    TextBuffer.point_to_offset [97, 98, 10, 99, 100] ⟨0, 5⟩ = 3 ∧
    TextBuffer.line_len [97, 98, 10, 99, 100] 0 = 2 ∧
    TextBuffer.point_to_offset [97, 98, 10, 99, 100] ⟨0, 5⟩ ≠
      TextBuffer.line_to_byte [97, 98, 10, 99, 100] 0 +
        TextBuffer.line_len [97, 98, 10, 99, 100] 0 := by decide

/-- C8 (amended): `offset_to_point` and `point_to_offset` are total, mutual
inverses for every in-range offset, and clamp out-of-range inputs: the offset
clamps to the buffer length, the row clamps to the last line, and the column
clamps to the destination line's ropey byte length — which includes the
trailing newline (not the terminator-stripped length). -/
theorem point_offset_roundtrip_clamped :
    (∀ (l : Bytes) (o : Nat), o ≤ TextBuffer.len l →
        TextBuffer.point_to_offset l (TextBuffer.offset_to_point l o) = o) ∧
    (∀ (l : Bytes) (o : Nat),
        TextBuffer.offset_to_point l o =
          TextBuffer.offset_to_point l (min o (TextBuffer.len l))) ∧
    (∀ (l : Bytes) (p : TextPoint),
        TextBuffer.point_to_offset l p =
          TextBuffer.point_to_offset l
            ⟨min p.row (TextBuffer.len_lines l - 1), p.column⟩) ∧
    (∀ (l : Bytes) (p : TextPoint),
        TextBuffer.point_to_offset l p =
          TextBuffer.point_to_offset l
            ⟨p.row, min p.column
              (TextBuffer.ropeLineLen l
                (min p.row (TextBuffer.len_lines l - 1)))⟩) := by
  refine ⟨?_, ?_, ?_, ?_⟩
  · intro l o ho
    have hmin : min o (TextBuffer.len l) = o := Nat.min_eq_left ho
    have hne : ¬ TextBuffer.len_lines l = 0 := Nat.succ_ne_zero _
    obtain ⟨h1, h2⟩ := line_to_byte_byte_to_line l o ho
    have hrow : TextBuffer.byte_to_line l o ≤ TextBuffer.len_lines l - 1 := by
      have := byte_to_line_le l o
      simp only [TextBuffer.len_lines]
      omega
    unfold TextBuffer.point_to_offset TextBuffer.offset_to_point
    rw [if_neg hne]
    simp only [hmin, Nat.min_eq_left hrow]
    have hcol : o - TextBuffer.line_to_byte l (TextBuffer.byte_to_line l o) ≤
        TextBuffer.ropeLineLen l (TextBuffer.byte_to_line l o) := by
      unfold TextBuffer.ropeLineLen
      omega
    rw [Nat.min_eq_left hcol]
    omega
  · intro l o
    simp [TextBuffer.offset_to_point, Nat.min_assoc]
  · intro l p
    simp [TextBuffer.point_to_offset, Nat.min_assoc]
  · intro l p
    simp [TextBuffer.point_to_offset, Nat.min_assoc]

/-- Witness for `point_offset_roundtrip_clamped`: the round-trip conjunct at a
concrete in-range offset. -/
theorem point_offset_roundtrip_clamped_witness :
    4 ≤ TextBuffer.len [97, 98, 10, 99, 100] ∧
    TextBuffer.point_to_offset [97, 98, 10, 99, 100]
      (TextBuffer.offset_to_point [97, 98, 10, 99, 100] 4) = 4 :=
  ⟨by decide, point_offset_roundtrip_clamped.1 [97, 98, 10, 99, 100] 4 (by decide)⟩

theorem attr_setRange (s : FormatSpan) (r : ByteRange) (a : Attr) :
    ({ s with range := r } : FormatSpan).attr a = s.attr a := by
  cases a <;> rfl

theorem overlaps_iff {s : FormatSpan} {r : ByteRange} :
    s.overlaps r = true ↔ s.range.start < r.stop ∧ r.start < s.range.stop := by
  simp [FormatSpan.overlaps]

theorem mem_splitRemainders {range : ByteRange} {c : FormatSpan → Bool}
    {spans : List FormatSpan} {x : FormatSpan} :
    x ∈ splitRemainders range c spans ↔
      ∃ s ∈ spans,
        (c s = false ∧ x = s) ∨
        (c s = true ∧ s.range.start < range.start ∧
            x = { s with range := ⟨s.range.start, range.start⟩ }) ∨
        (c s = true ∧ s.range.stop > range.stop ∧
            x = { s with range := ⟨range.stop, s.range.stop⟩ }) := by
  unfold splitRemainders
  rw [List.mem_flatMap]
  apply exists_congr
  intro s
  apply and_congr_right
  intro _
  split_ifs <;>
    simp_all [Bool.not_eq_true', List.mem_append]

theorem attrAt_splitRemainders_fwd {range : ByteRange} {c : FormatSpan → Bool}
    {spans : List FormatSpan} {a : Attr} {i : Nat}
    (hc : ∀ s ∈ spans, c s = true → s.overlaps range = true) :
    attrAt (splitRemainders range c spans) a i → attrAt spans a i := by
  rintro ⟨x, hx, hattr, hcov⟩
  rcases mem_splitRemainders.1 hx with ⟨s, hs, h⟩
  rcases h with ⟨hcs, hxe⟩ | ⟨hcs, hlt, hxe⟩ | ⟨hcs, hgt, hxe⟩ <;> subst hxe
  · exact ⟨x, hs, hattr, hcov⟩
  · have hover := overlaps_iff.1 (hc s hs hcs)
    rw [attr_setRange] at hattr
    refine ⟨s, hs, hattr, ?_⟩
    unfold FormatSpan.covers at hcov ⊢
    simp only at hcov
    omega
  · have hover := overlaps_iff.1 (hc s hs hcs)
    rw [attr_setRange] at hattr
    refine ⟨s, hs, hattr, ?_⟩
    unfold FormatSpan.covers at hcov ⊢
    simp only at hcov
    omega

theorem attrAt_splitRemainders_noncand {range : ByteRange}
    {c : FormatSpan → Bool} {spans : List FormatSpan} {a : Attr} {i : Nat}
    {s : FormatSpan} (hs : s ∈ spans) (hcs : c s = false)
    (hattr : s.attr a = some true) (hcov : s.covers i) :
    attrAt (splitRemainders range c spans) a i :=
  ⟨s, mem_splitRemainders.2 ⟨s, hs, Or.inl ⟨hcs, rfl⟩⟩, hattr, hcov⟩

theorem attrAt_splitRemainders_outside {range : ByteRange}
    {c : FormatSpan → Bool} {spans : List FormatSpan} {a : Attr} {i : Nat}
    {s : FormatSpan} (hs : s ∈ spans) (hattr : s.attr a = some true)
    (hcov : s.covers i) (hout : i < range.start ∨ range.stop ≤ i) :
    attrAt (splitRemainders range c spans) a i := by
  by_cases hcs : c s = true
  · unfold FormatSpan.covers at hcov
    rcases hout with h | h
    · refine ⟨{ s with range := ⟨s.range.start, range.start⟩ },
        mem_splitRemainders.2 ⟨s, hs, Or.inr (Or.inl ⟨hcs, by omega, rfl⟩)⟩,
        ?_, ?_⟩
      · rw [attr_setRange]; exact hattr
      · unfold FormatSpan.covers
        simp only
        omega
    · refine ⟨{ s with range := ⟨range.stop, s.range.stop⟩ },
        mem_splitRemainders.2 ⟨s, hs, Or.inr (Or.inr ⟨hcs, by omega, rfl⟩)⟩,
        ?_, ?_⟩
      · rw [attr_setRange]; exact hattr
      · unfold FormatSpan.covers
        simp only
        omega
  · exact attrAt_splitRemainders_noncand hs (by simpa using hcs) hattr hcov

theorem attrAt_splitRemainders_inside_none {range : ByteRange}
    {c : FormatSpan → Bool} {spans : List FormatSpan} {a : Attr} {i : Nat}
    (hin : range.start ≤ i ∧ i < range.stop)
    (hall : ∀ s ∈ spans, s.attr a = some true → s.covers i → c s = true) :
    ¬ attrAt (splitRemainders range c spans) a i := by
  rintro ⟨x, hx, hattr, hcov⟩
  rcases mem_splitRemainders.1 hx with ⟨s, hs, h⟩
  rcases h with ⟨hcs, hxe⟩ | ⟨hcs, hlt, hxe⟩ | ⟨hcs, hgt, hxe⟩ <;> subst hxe
  · exact absurd (hall x hs hattr hcov) (by simp [hcs])
  · unfold FormatSpan.covers at hcov
    simp only at hcov
    omega
  · unfold FormatSpan.covers at hcov
    simp only at hcov
    omega

theorem attrAt_of_perm {l l' : List FormatSpan} (h : l.Perm l') {a : Attr}
    {i : Nat} : attrAt l a i ↔ attrAt l' a i := by
  unfold attrAt
  constructor <;> rintro ⟨s, hs, hrest⟩
  · exact ⟨s, h.mem_iff.1 hs, hrest⟩
  · exact ⟨s, h.mem_iff.2 hs, hrest⟩

theorem attrAt_append {l l' : List FormatSpan} {a : Attr} {i : Nat} :
    attrAt (l ++ l') a i ↔ attrAt l a i ∨ attrAt l' a i := by
  unfold attrAt
  simp only [List.mem_append]
  constructor
  · rintro ⟨s, hs | hs, hrest⟩
    · exact Or.inl ⟨s, hs, hrest⟩
    · exact Or.inr ⟨s, hs, hrest⟩
  · rintro (⟨s, hs, hrest⟩ | ⟨s, hs, hrest⟩)
    · exact ⟨s, Or.inl hs, hrest⟩
    · exact ⟨s, Or.inr hs, hrest⟩

theorem attrSpan_attr_self (a : Attr) (r : ByteRange) :
    (attrSpan a r).attr a = some true := by
  cases a <;> rfl

theorem attrSpan_attr_ne {a a' : Attr} (h : a' ≠ a) (r : ByteRange) :
    (attrSpan a r).attr a' = none := by
  cases a <;> cases a' <;> first | rfl | exact absurd rfl h

theorem attrSpan_range (a : Attr) (r : ByteRange) :
    (attrSpan a r).range = r := by
  cases a <;> rfl

instance : IsTotal (Nat × Nat) (fun p q => p.1 ≤ q.1) :=
  ⟨fun a b => Nat.le_total a.1 b.1⟩

instance : IsTrans (Nat × Nat) (fun p q => p.1 ≤ q.1) :=
  ⟨fun _ _ _ => Nat.le_trans⟩

instance : IsTotal FormatSpan (fun x y => x.range.start ≤ y.range.start) :=
  ⟨fun a b => Nat.le_total a.range.start b.range.start⟩

instance : IsTrans FormatSpan (fun x y => x.range.start ≤ y.range.start) :=
  ⟨fun _ _ _ => Nat.le_trans⟩

theorem sweep_le {l : List (Nat × Nat)} {cursor c : Nat}
    (h : sweepCoverage l cursor = some c) : cursor ≤ c := by
  induction l generalizing cursor with
  | nil =>
    simp only [sweepCoverage, Option.some.injEq] at h
    omega
  | cons p rest ih =>
    obtain ⟨s, e⟩ := p
    unfold sweepCoverage at h
    split_ifs at h with hs
    have := ih h
    omega

theorem sweep_covers {l : List (Nat × Nat)} {cursor c : Nat}
    (h : sweepCoverage l cursor = some c) :
    ∀ i, cursor ≤ i → i < c → ∃ p ∈ l, p.1 ≤ i ∧ i < p.2 := by
  induction l generalizing cursor with
  | nil =>
    simp only [sweepCoverage, Option.some.injEq] at h
    intro i h1 h2
    omega
  | cons p rest ih =>
    obtain ⟨s, e⟩ := p
    unfold sweepCoverage at h
    split_ifs at h with hs
    intro i h1 h2
    by_cases hie : i < max cursor e
    · exact ⟨(s, e), List.mem_cons_self _ _, by simp only; omega,
        by simp only; omega⟩
    · obtain ⟨q, hq, hcv⟩ := ih h i (by omega) h2
      exact ⟨q, List.mem_cons_of_mem _ hq, hcv⟩

theorem sweep_all_le {l : List (Nat × Nat)} {bnd : Nat}
    (hb : ∀ p ∈ l, p.1 < bnd) :
    ∀ {cursor : Nat}, bnd ≤ cursor →
      ∃ c, sweepCoverage l cursor = some c ∧ cursor ≤ c := by
  induction l with
  | nil => exact fun _ => ⟨_, rfl, le_refl _⟩
  | cons p rest ih =>
    intro cursor hc
    obtain ⟨s, e⟩ := p
    have hs : s ≤ cursor := by
      have := hb (s, e) (List.mem_cons_self _ _)
      simp only at this
      omega
    obtain ⟨c, hcc, hle⟩ :=
      ih (fun q hq => hb q (List.mem_cons_of_mem _ hq))
        (show bnd ≤ max cursor e by omega)
    refine ⟨c, ?_, by omega⟩
    unfold sweepCoverage
    rw [if_pos hs]
    exact hcc

theorem sweep_of_cov {bnd : Nat} :
    ∀ {l : List (Nat × Nat)} (cursor : Nat),
      l.Pairwise (fun p q => p.1 ≤ q.1) →
      (∀ p ∈ l, p.1 < bnd) →
      (∀ i, cursor ≤ i → i < bnd → ∃ p ∈ l, p.1 ≤ i ∧ i < p.2) →
      ∃ c, sweepCoverage l cursor = some c ∧ bnd ≤ c := by
  intro l
  induction l with
  | nil =>
    intro cursor _ _ hcov
    by_cases h : cursor < bnd
    · obtain ⟨p, hp, _⟩ := hcov cursor (le_refl _) h
      cases hp
    · exact ⟨cursor, rfl, by omega⟩
  | cons p rest ih =>
    intro cursor hsort hb hcov
    obtain ⟨s, e⟩ := p
    by_cases hcb : bnd ≤ cursor
    · obtain ⟨c, h1, h2⟩ := sweep_all_le hb hcb
      exact ⟨c, h1, by omega⟩
    · push_neg at hcb
      obtain ⟨q, hq, hq1, hq2⟩ := hcov cursor (le_refl _) hcb
      have hs : s ≤ cursor := by
        rcases List.mem_cons.1 hq with rfl | hq'
        · simpa using hq1
        · have := (List.pairwise_cons.1 hsort).1 q hq'
          simp only at this
          omega
      obtain ⟨c, hcc, hle⟩ := ih (max cursor e) (List.pairwise_cons.1 hsort).2
        (fun q' hq' => hb q' (List.mem_cons_of_mem _ hq'))
        (by
          intro i h1 h2
          obtain ⟨q', hq', hg1, hg2⟩ := hcov i (by omega) h2
          rcases List.mem_cons.1 hq' with rfl | hmem
          · exfalso
            simp only at hg1 hg2
            omega
          · exact ⟨q', hmem, hg1, hg2⟩)
      refine ⟨c, ?_, hle⟩
      unfold sweepCoverage
      rw [if_pos hs]
      exact hcc

theorem is_formatted_iff {spans : List FormatSpan} {r : ByteRange} {a : Attr}
    (hne : r.start < r.stop) :
    is_formatted_with spans r (fun s => s.attr a) = true ↔
      ∀ i, r.start ≤ i → i < r.stop → attrAt spans a i := by
  unfold is_formatted_with
  rw [if_neg (by simp only [ByteRange.isEmpty, decide_eq_true_eq]; omega)]
  set cl := (spans.filter
      (fun s => (fun s => s.attr a) s == some true && s.overlaps r)).map
      (fun s => (max s.range.start r.start, min s.range.stop r.stop)) with hcl
  set srt := cl.insertionSort (fun x y => x.1 ≤ y.1) with hsrt
  have hperm : srt.Perm cl := List.perm_insertionSort _ cl
  have hsorted : srt.Pairwise (fun p q : Nat × Nat => p.1 ≤ q.1) :=
    List.sorted_insertionSort _ cl
  have hbnd : ∀ p ∈ srt, p.1 < r.stop := by
    intro p hp
    rcases List.mem_map.1 (hperm.mem_iff.1 hp) with ⟨s, hsf, rfl⟩
    have hov : s.overlaps r = true := by
      have hf := List.of_mem_filter hsf
      simp only [Bool.and_eq_true] at hf
      exact hf.2
    have := overlaps_iff.1 hov
    simp only
    omega
  have hcov : ∀ i, r.start ≤ i → i < r.stop →
      ((∃ p ∈ srt, p.1 ≤ i ∧ i < p.2) ↔ attrAt spans a i) := by
    intro i h1 h2
    constructor
    · rintro ⟨p, hp, hp1, hp2⟩
      rcases List.mem_map.1 (hperm.mem_iff.1 hp) with ⟨s, hsf, rfl⟩
      have hf := List.of_mem_filter hsf
      simp only [Bool.and_eq_true, beq_iff_eq] at hf
      have hattr : s.attr a = some true := hf.1
      refine ⟨s, List.mem_of_mem_filter hsf, hattr, ?_⟩
      unfold FormatSpan.covers
      simp only at hp1 hp2
      omega
    · rintro ⟨s, hs, hattr, hcv⟩
      unfold FormatSpan.covers at hcv
      have hov : s.overlaps r = true := overlaps_iff.2 (by omega)
      refine ⟨(max s.range.start r.start, min s.range.stop r.stop), ?_, ?_, ?_⟩
      · apply hperm.mem_iff.2
        apply List.mem_map.2
        refine ⟨s, List.mem_filter.2 ⟨hs, ?_⟩, rfl⟩
        simp [hattr, hov]
      · simp only
        omega
      · simp only
        omega
  cases heq : sweepCoverage srt r.start with
  | none =>
    simp only [heq]
    constructor
    · intro h
      cases h
    · intro hall
      exfalso
      obtain ⟨c, hc1, hc2⟩ := sweep_of_cov r.start hsorted hbnd
        (fun i hi1 hi2 => (hcov i hi1 hi2).2 (hall i hi1 hi2))
      rw [heq] at hc1
      cases hc1
  | some cursor =>
    simp only [heq, decide_eq_true_eq, ge_iff_le]
    constructor
    · intro hge i h1 h2
      obtain ⟨p, hp, hcv⟩ := sweep_covers heq i h1 (by omega)
      exact (hcov i h1 h2).1 ⟨p, hp, hcv⟩
    · intro hall
      obtain ⟨c, hc1, hc2⟩ := sweep_of_cov r.start hsorted hbnd
        (fun i hi1 hi2 => (hcov i hi1 hi2).2 (hall i hi1 hi2))
      rw [heq] at hc1
      injection hc1 with h
      omega

theorem toggleSpans_of_full {spans : List FormatSpan} {r : ByteRange} {a : Attr}
    (h : is_formatted_with spans r (fun s => s.attr a) = true) :
    toggleSpans spans r a =
      splitRemainders r (shouldSplitSpan r a true) spans := by
  unfold toggleSpans
  rw [h]
  simp

theorem toggleSpans_of_not_full {spans : List FormatSpan} {r : ByteRange}
    {a : Attr} (h : is_formatted_with spans r (fun s => s.attr a) = false) :
    toggleSpans spans r a =
      (splitRemainders r (shouldSplitSpan r a false) spans ++
        [attrSpan a r]).insertionSort
          (fun x y => x.range.start ≤ y.range.start) := by
  unfold toggleSpans
  rw [h]
  simp

theorem shouldSplitSpan_overlaps {r : ByteRange} {a : Attr} {f : Bool}
    {s : FormatSpan} (h : shouldSplitSpan r a f s = true) :
    s.overlaps r = true := by
  unfold shouldSplitSpan at h
  simp only [Bool.and_eq_true] at h
  exact h.1

theorem toggle_outside {spans : List FormatSpan} {r : ByteRange} {a a' : Attr}
    {i : Nat} (hout : i < r.start ∨ r.stop ≤ i) :
    attrAt (toggleSpans spans r a) a' i ↔ attrAt spans a' i := by
  cases hf : is_formatted_with spans r (fun s => s.attr a) with
  | true =>
    rw [toggleSpans_of_full hf]
    constructor
    · exact attrAt_splitRemainders_fwd (fun s _ hc => shouldSplitSpan_overlaps hc)
    · rintro ⟨s, hs, hattr, hcov⟩
      exact attrAt_splitRemainders_outside hs hattr hcov hout
  | false =>
    rw [toggleSpans_of_not_full hf,
      attrAt_of_perm (List.perm_insertionSort _ _), attrAt_append]
    constructor
    · rintro (h | h)
      · exact attrAt_splitRemainders_fwd
          (fun s _ hc => shouldSplitSpan_overlaps hc) h
      · exfalso
        rcases h with ⟨y, hy, hattr, hcov⟩
        rcases List.mem_singleton.1 hy with rfl
        unfold FormatSpan.covers at hcov
        rw [attrSpan_range] at hcov
        omega
    · rintro ⟨s, hs, hattr, hcov⟩
      exact Or.inl (attrAt_splitRemainders_outside hs hattr hcov hout)

theorem toggle_inside_on {spans : List FormatSpan} {r : ByteRange} {a : Attr}
    {i : Nat} (hf : is_formatted_with spans r (fun s => s.attr a) = false)
    (hin : r.start ≤ i ∧ i < r.stop) :
    attrAt (toggleSpans spans r a) a i := by
  rw [toggleSpans_of_not_full hf,
    attrAt_of_perm (List.perm_insertionSort _ _), attrAt_append]
  right
  refine ⟨attrSpan a r, List.mem_singleton.2 rfl, attrSpan_attr_self a r, ?_⟩
  unfold FormatSpan.covers
  rw [attrSpan_range]
  exact hin

theorem toggle_inside_off {spans : List FormatSpan} {r : ByteRange} {a : Attr}
    {i : Nat} (hf : is_formatted_with spans r (fun s => s.attr a) = true)
    (hin : r.start ≤ i ∧ i < r.stop) :
    ¬ attrAt (toggleSpans spans r a) a i := by
  rw [toggleSpans_of_full hf]
  apply attrAt_splitRemainders_inside_none hin
  intro s _ hattr hcov
  unfold FormatSpan.covers at hcov
  have hov : s.overlaps r = true := overlaps_iff.2 (by omega)
  unfold shouldSplitSpan
  simp [hov, hattr]

/-- C6 counterexample: toggling bold over the empty range `[2,2)` on an empty
buffer is not a no-op on the span collection — the code still pushes the new
empty bold span. -/
theorem empty_toggle_not_noop :
    ((Buffer.mk [] []).toggle_bold ⟨2, 2⟩).format_spans ≠ [] ∧
    ((Buffer.mk [] []).toggle_bold ⟨2, 2⟩).format_spans =
      [FormatSpan.mk ⟨2, 2⟩ (some true) none none] := by decide

/-- C6 (amended): a toggle over an empty range leaves the text and the
effective per-offset coverage of every attribute unchanged — it is a coverage
no-op — but the span collection itself may change (an empty span asserting
the toggled attribute is pushed, and spans asserting that attribute strictly
containing the position are split). -/
theorem empty_toggle_coverage_noop (b : Buffer) (x : Nat) (a : Attr) :
    (b.toggleAttr a ⟨x, x⟩).text = b.text ∧
    ∀ (a' : Attr) (i : Nat),
      attrAt (b.toggleAttr a ⟨x, x⟩).format_spans a' i ↔
        attrAt b.format_spans a' i := by
  constructor
  · rfl
  · intro a' i
    show attrAt (toggleSpans b.format_spans ⟨x, x⟩ a) a' i ↔ _
    have hf : is_formatted_with b.format_spans ⟨x, x⟩
        (fun s => s.attr a) = false := by
      simp [is_formatted_with, ByteRange.isEmpty]
    rw [toggleSpans_of_not_full hf,
      attrAt_of_perm (List.perm_insertionSort _ _), attrAt_append]
    constructor
    · rintro (h | h)
      · exact attrAt_splitRemainders_fwd
          (fun s _ hc => shouldSplitSpan_overlaps hc) h
      · exfalso
        rcases h with ⟨y, hy, hattr, hcov⟩
        rcases List.mem_singleton.1 hy with rfl
        unfold FormatSpan.covers at hcov
        rw [attrSpan_range] at hcov
        exact Nat.lt_irrefl x (Nat.lt_of_le_of_lt hcov.1 hcov.2)
    · rintro ⟨s, hs, hattr, hcov⟩
      exact Or.inl
        (attrAt_splitRemainders_outside hs hattr hcov (Nat.lt_or_ge i x))

theorem overlaps_eq_false_iff {s : FormatSpan} {r : ByteRange} :
    s.overlaps r = false ↔
      ¬ (s.range.start < r.stop ∧ r.start < s.range.stop) := by
  rw [← overlaps_iff]
  cases s.overlaps r <;> simp

/-- C1 counterexample: from a *partially* covered range, a double toggle does
not restore coverage.  With a single bold span `[0,2)`, toggling bold twice
over `[0,4)` leaves offset 0 unbold, though it was bold initially: the first
toggle extends bold to all of `[0,4)`, the second removes it entirely. -/
theorem double_toggle_not_idempotent :
    attrAt [FormatSpan.mk ⟨0, 2⟩ (some true) none none] .bold 0 ∧
    ¬ attrAt
        (toggleSpans
          (toggleSpans [FormatSpan.mk ⟨0, 2⟩ (some true) none none]
            ⟨0, 4⟩ .bold) ⟨0, 4⟩ .bold) .bold 0 := by decide

/-- C1 (amended): over a nonempty range R, toggling the same attribute twice
restores per-offset coverage everywhere provided the starting coverage of R
was all-or-nothing (R fully covered, or no offset of R covered); and starting
from a collection in which no span asserting the attribute overlaps R, after
the double toggle no span asserting the attribute overlaps R. -/
theorem double_toggle_coverage (spans : List FormatSpan) (r : ByteRange)
    (a : Attr) (hne : r.start < r.stop) :
    ((is_formatted_with spans r (fun s => s.attr a) = true ∨
        (∀ i, r.start ≤ i → i < r.stop → ¬ attrAt spans a i)) →
      ∀ i, attrAt (toggleSpans (toggleSpans spans r a) r a) a i ↔
        attrAt spans a i) ∧
    ((∀ s ∈ spans, s.attr a = some true → s.overlaps r = false) →
      ∀ s ∈ toggleSpans (toggleSpans spans r a) r a,
        s.attr a = some true → s.overlaps r = false) := by
  constructor
  · rintro (hfull | hnone) i
    · have hf1 : is_formatted_with (toggleSpans spans r a) r
          (fun s => s.attr a) = false := by
        by_contra h
        rw [Bool.not_eq_false] at h
        exact toggle_inside_off hfull ⟨le_refl _, hne⟩
          ((is_formatted_iff hne).1 h r.start (le_refl _) hne)
      by_cases hio : r.start ≤ i ∧ i < r.stop
      · constructor
        · intro _
          exact (is_formatted_iff hne).1 hfull i hio.1 hio.2
        · intro _
          exact toggle_inside_on hf1 hio
      · have hout : i < r.start ∨ r.stop ≤ i := by omega
        rw [toggle_outside hout, toggle_outside hout]
    · have hf0 : is_formatted_with spans r (fun s => s.attr a) = false := by
        by_contra h
        rw [Bool.not_eq_false] at h
        exact hnone r.start (le_refl _) hne
          ((is_formatted_iff hne).1 h r.start (le_refl _) hne)
      have hf1 : is_formatted_with (toggleSpans spans r a) r
          (fun s => s.attr a) = true :=
        (is_formatted_iff hne).2 (fun j h1 h2 => toggle_inside_on hf0 ⟨h1, h2⟩)
      by_cases hio : r.start ≤ i ∧ i < r.stop
      · constructor
        · intro h
          exact absurd h (toggle_inside_off hf1 hio)
        · intro h
          exact absurd h (hnone i hio.1 hio.2)
      · have hout : i < r.start ∨ r.stop ≤ i := by omega
        rw [toggle_outside hout, toggle_outside hout]
  · intro hno
    have hnone : ∀ i, r.start ≤ i → i < r.stop → ¬ attrAt spans a i := by
      rintro i h1 h2 ⟨s, hs, hattr, hcov⟩
      have hov : s.overlaps r = true := overlaps_iff.2 (by
        unfold FormatSpan.covers at hcov
        omega)
      simp [hno s hs hattr] at hov
    have hf0 : is_formatted_with spans r (fun s => s.attr a) = false := by
      by_contra h
      rw [Bool.not_eq_false] at h
      exact hnone r.start (le_refl _) hne
        ((is_formatted_iff hne).1 h r.start (le_refl _) hne)
    have hf1 : is_formatted_with (toggleSpans spans r a) r
        (fun s => s.attr a) = true :=
      (is_formatted_iff hne).2 (fun j h1 h2 => toggle_inside_on hf0 ⟨h1, h2⟩)
    intro s' hs' hattr
    rw [toggleSpans_of_full hf1] at hs'
    rcases mem_splitRemainders.1 hs' with ⟨s, hsmem, h⟩
    rcases h with ⟨hcs, hxe⟩ | ⟨hcs, hlt, hxe⟩ | ⟨hcs, hgt, hxe⟩ <;> subst hxe
    · cases hov : FormatSpan.overlaps s' r with
      | false => rfl
      | true =>
        exfalso
        unfold shouldSplitSpan at hcs
        simp [hov, hattr] at hcs
    · refine overlaps_eq_false_iff.2 ?_
      dsimp only
      omega
    · refine overlaps_eq_false_iff.2 ?_
      dsimp only
      omega

/-- Witness for `double_toggle_coverage`: the all-or-nothing hypothesis is
satisfiable (fully covered case) and the double toggle restores coverage. -/
theorem double_toggle_coverage_witness :
    (0 : Nat) < 2 ∧
    is_formatted_with [FormatSpan.mk ⟨0, 2⟩ (some true) none none] ⟨0, 2⟩
      (fun s => s.attr .bold) = true ∧
    (attrAt
        (toggleSpans
          (toggleSpans [FormatSpan.mk ⟨0, 2⟩ (some true) none none]
            ⟨0, 2⟩ .bold) ⟨0, 2⟩ .bold) .bold 1 ↔
      attrAt [FormatSpan.mk ⟨0, 2⟩ (some true) none none] .bold 1) :=
  ⟨by decide, by decide,
    (double_toggle_coverage [FormatSpan.mk ⟨0, 2⟩ (some true) none none]
      ⟨0, 2⟩ .bold (by decide)).1 (Or.inl (by decide)) 1⟩


theorem splitRemainders_filter_none (range : ByteRange) (c : FormatSpan → Bool)
    (bT : Attr) (spans : List FormatSpan) :
    (∀ s ∈ spans, c s = true → s.attr bT ≠ none) →
    (splitRemainders range c spans).filter
        (fun s => decide (s.attr bT = none)) =
      spans.filter (fun s => decide (s.attr bT = none)) := by
  induction spans with
  | nil => intro _; rfl
  | cons s rest ih =>
    intro hc
    have ihr := ih (fun q hq hcq => hc q (List.mem_cons_of_mem _ hq) hcq)
    unfold splitRemainders at ihr ⊢
    rw [List.flatMap_cons, List.filter_append, ihr, List.filter_cons]
    cases hcs : c s with
    | false =>
      simp only [hcs, Bool.not_false, if_true]
      rw [List.filter_cons]
      by_cases hp : s.attr bT = none <;> simp [hp]
    | true =>
      have hne := hc s (List.mem_cons_self _ _) hcs
      simp only [hcs, Bool.not_true, Bool.false_eq_true, if_false,
        List.filter_append]
      split_ifs <;> simp_all [attr_setRange]

theorem toggle_preserves_other_attr {spans : List FormatSpan} {r : ByteRange}
    {bT bO : Attr} (hne : bO ≠ bT)
    (hdisc : ∀ s ∈ spans, s.attr bO = some true → s.attr bT = none) :
    ∀ i, attrAt (toggleSpans spans r bT) bO i ↔ attrAt spans bO i := by
  intro i
  have key : ∀ f : Bool,
      attrAt (splitRemainders r (shouldSplitSpan r bT f) spans) bO i ↔
        attrAt spans bO i := by
    intro f
    constructor
    · exact attrAt_splitRemainders_fwd (fun s _ hc => shouldSplitSpan_overlaps hc)
    · rintro ⟨s, hs, hattr, hcov⟩
      refine attrAt_splitRemainders_noncand hs ?_ hattr hcov
      have hn := hdisc s hs hattr
      unfold shouldSplitSpan
      cases f <;> simp [hn]
  cases hfull : is_formatted_with spans r (fun s => s.attr bT) with
  | true =>
    rw [toggleSpans_of_full hfull]
    exact key true
  | false =>
    rw [toggleSpans_of_not_full hfull,
      attrAt_of_perm (List.perm_insertionSort _ _), attrAt_append]
    constructor
    · rintro (h | h)
      · exact (key false).1 h
      · exfalso
        rcases h with ⟨y, hy, hattr, _⟩
        rcases List.mem_singleton.1 hy with rfl
        rw [attrSpan_attr_ne hne] at hattr
        cases hattr
    · intro h
      exact Or.inl ((key false).2 h)

/-- C2 counterexample: with a bold span `[0,10)` and an italic span `[2,4)`,
toggling italic over the sub-range `[2,4)` of the bold span does not leave
both attributes true there — the range is already fully italic, so the toggle
turns italic off at offset 2 (bold stays). -/
theorem toggle_other_attr_off_when_full :
    attrAt [FormatSpan.mk ⟨0, 10⟩ (some true) none none,
        FormatSpan.mk ⟨2, 4⟩ none (some true) none] .italic 2 ∧
    ¬ attrAt
        (toggleSpans
          [FormatSpan.mk ⟨0, 10⟩ (some true) none none,
            FormatSpan.mk ⟨2, 4⟩ none (some true) none] ⟨2, 4⟩ .italic)
        .italic 2 ∧
    attrAt
      (toggleSpans
        [FormatSpan.mk ⟨0, 10⟩ (some true) none none,
          FormatSpan.mk ⟨2, 4⟩ none (some true) none] ⟨2, 4⟩ .italic)
      .bold 2 := by decide

/-- C2 (amended): a toggle of attribute `bT` never modifies or removes any
span whose `bT` field is `None` — those spans survive as a permutation of
themselves; under the single-attribute discipline, the coverage of every other
attribute is unchanged at every offset; and the toggled attribute holds on the
whole toggled range afterwards whenever the range was not already fully
covered (when it was, the toggle turns it off instead). -/
theorem toggle_frame_other_attribute :
    (∀ (spans : List FormatSpan) (r : ByteRange) (bT : Attr),
      ((toggleSpans spans r bT).filter
          (fun s => decide (s.attr bT = none))).Perm
        (spans.filter (fun s => decide (s.attr bT = none)))) ∧
    (∀ (spans : List FormatSpan) (r : ByteRange) (bT bO : Attr), bO ≠ bT →
      (∀ s ∈ spans, s.attr bO = some true → s.attr bT = none) →
      ∀ i, attrAt (toggleSpans spans r bT) bO i ↔ attrAt spans bO i) ∧
    (∀ (spans : List FormatSpan) (r : ByteRange) (bT : Attr) (i : Nat),
      is_formatted_with spans r (fun s => s.attr bT) = false →
      r.start ≤ i → i < r.stop → attrAt (toggleSpans spans r bT) bT i) := by
  refine ⟨?_, ?_, ?_⟩
  · intro spans r bT
    have hcand : ∀ (f : Bool) (s : FormatSpan), s ∈ spans →
        shouldSplitSpan r bT f s = true → s.attr bT ≠ none := by
      intro f s _ hc
      unfold shouldSplitSpan at hc
      simp only [Bool.and_eq_true] at hc
      rcases hc with ⟨_, h2⟩
      cases f
      · simp only [Bool.false_eq_true, if_false] at h2
        intro hn
        rw [hn] at h2
        cases h2
      · simp only [if_true] at h2
        intro hn
        rw [hn] at h2
        cases h2
    cases hfull : is_formatted_with spans r (fun s => s.attr bT) with
    | true =>
      rw [toggleSpans_of_full hfull,
        splitRemainders_filter_none r _ bT spans (hcand true)]
    | false =>
      rw [toggleSpans_of_not_full hfull]
      refine List.Perm.trans
        (List.Perm.filter _ (List.perm_insertionSort _ _)) ?_
      rw [List.filter_append,
        splitRemainders_filter_none r _ bT spans (hcand false)]
      have hpush : List.filter (fun s => decide (s.attr bT = none))
          [attrSpan bT r] = [] := by
        simp [attrSpan_attr_self]
      rw [hpush, List.append_nil]
  · intro spans r bT bO hne hdisc i
    exact toggle_preserves_other_attr hne hdisc i
  · intro spans r bT i hf h1 h2
    exact toggle_inside_on hf ⟨h1, h2⟩

/-- Witness for `toggle_frame_other_attribute`: the hypothesis-bearing
conjuncts applied on a concrete bold span with an italic toggle. -/
theorem toggle_frame_other_attribute_witness :
    (Attr.bold ≠ Attr.italic ∧
      (∀ s ∈ [FormatSpan.mk ⟨0, 10⟩ (some true) none none],
        s.attr .bold = some true → s.attr .italic = none) ∧
      (attrAt
          (toggleSpans [FormatSpan.mk ⟨0, 10⟩ (some true) none none]
            ⟨2, 4⟩ .italic) .bold 3 ↔
        attrAt [FormatSpan.mk ⟨0, 10⟩ (some true) none none] .bold 3)) ∧
    (is_formatted_with [FormatSpan.mk ⟨0, 10⟩ (some true) none none] ⟨2, 4⟩
        (fun s => s.attr .italic) = false ∧
      (2 : Nat) ≤ 3 ∧ (3 : Nat) < 4 ∧
      attrAt
        (toggleSpans [FormatSpan.mk ⟨0, 10⟩ (some true) none none]
          ⟨2, 4⟩ .italic) .italic 3) :=
  ⟨⟨by decide, by decide,
    toggle_frame_other_attribute.2.1
      [FormatSpan.mk ⟨0, 10⟩ (some true) none none] ⟨2, 4⟩ .italic .bold
      (by decide) (by decide) 3⟩,
   ⟨by decide, by decide, by decide,
    toggle_frame_other_attribute.2.2
      [FormatSpan.mk ⟨0, 10⟩ (some true) none none] ⟨2, 4⟩ .italic 3
      (by decide) (by decide) (by decide)⟩⟩

theorem insertRule_start_mono {s1 s2 : FormatSpan} (offset L : Nat)
    (h : s1.range.start ≤ s2.range.start) :
    (insertRule s1 offset L).range.start ≤
      (insertRule s2 offset L).range.start := by
  unfold insertRule
  split_ifs <;> (try dsimp only) <;> omega

theorem removeRule_start_mono {s1 s2 : FormatSpan} (offset L : Nat)
    (hw1 : s1.range.start ≤ s1.range.stop)
    (hw2 : s2.range.start ≤ s2.range.stop)
    (h : s1.range.start ≤ s2.range.start) :
    (removeRule s1 offset L).range.start ≤
      (removeRule s2 offset L).range.start := by
  unfold removeRule
  split_ifs <;> (try dsimp only) <;> omega

/-- C7 counterexample: a fully reachable sequence after which the collection
is not sorted by range start.  From empty spans: toggle bold over `[0,10)`,
toggle italic over `[1,2)` (collection sorted), then toggle bold over `[4,5)`
— the cover-off branch performs no re-sort, and the result
`[bold [0,4), bold [5,10), italic [1,2)]` is unsorted. -/
theorem cover_off_branch_unsorted :
    sortedByStart
      (Buffer.toggle_italic
        (Buffer.toggle_bold (Buffer.mk (List.replicate 10 97) []) ⟨0, 10⟩)
        ⟨1, 2⟩).format_spans ∧
    ¬ sortedByStart
        (Buffer.toggle_bold
          (Buffer.toggle_italic
            (Buffer.toggle_bold (Buffer.mk (List.replicate 10 97) []) ⟨0, 10⟩)
            ⟨1, 2⟩) ⟨4, 5⟩).format_spans := by decide

/-- C7 (amended): the turn-on branch of a toggle re-sorts, so its result is
sorted by range start; the `insert` re-anchoring preserves sortedness; the
`remove` re-anchoring preserves sortedness of well-formed (start ≤ end) spans.
The cover-off branch of a toggle performs no re-sort and can leave the
collection unsorted. -/
theorem sorted_after_mutations :
    (∀ (spans : List FormatSpan) (r : ByteRange) (a : Attr),
      is_formatted_with spans r (fun s => s.attr a) = false →
      sortedByStart (toggleSpans spans r a)) ∧
    (∀ (b : Buffer) (offset : Nat) (t : Bytes),
      sortedByStart b.format_spans →
      sortedByStart (b.insert offset t).format_spans) ∧
    (∀ (b : Buffer) (r : ByteRange),
      (∀ s ∈ b.format_spans, s.range.start ≤ s.range.stop) →
      sortedByStart b.format_spans →
      sortedByStart (b.remove r).format_spans) := by
  refine ⟨?_, ?_, ?_⟩
  · intro spans r a h
    rw [toggleSpans_of_not_full h]
    exact List.sorted_insertionSort _ _
  · intro b offset t hsort
    show sortedByStart
      (b.format_spans.map fun s => s.shift_by_delta offset (t.length : Int))
    unfold sortedByStart at *
    rw [List.pairwise_map]
    refine hsort.imp ?_
    intro x y h
    rw [shift_insert_eq_rule, shift_insert_eq_rule]
    exact insertRule_start_mono _ _ h
  · intro b r hwf hsort
    show sortedByStart
      ((b.format_spans.map
        fun s => s.shift_by_delta r.start (-(r.len : Int))).filter
        fun s => !s.range.isEmpty)
    unfold sortedByStart at *
    apply List.Pairwise.sublist (List.filter_sublist _)
    rw [List.pairwise_map]
    refine List.Pairwise.imp_of_mem ?_ hsort
    intro x y hx hy hxy
    rw [shift_remove_eq_rule, shift_remove_eq_rule]
    exact removeRule_start_mono _ _ (hwf x hx) (hwf y hy) hxy

/-- Witness for `sorted_after_mutations`: the three hypothesis-bearing
conjuncts applied on concrete inputs. -/
theorem sorted_after_mutations_witness :
    (is_formatted_with [] ⟨0, 2⟩ (fun s => s.attr .bold) = false ∧
      sortedByStart (toggleSpans [] ⟨0, 2⟩ .bold)) ∧
    (sortedByStart
        (Buffer.mk [97, 98, 99]
          [FormatSpan.mk ⟨0, 1⟩ (some true) none none,
            FormatSpan.mk ⟨1, 3⟩ none (some true) none]).format_spans ∧
      sortedByStart
        ((Buffer.mk [97, 98, 99]
          [FormatSpan.mk ⟨0, 1⟩ (some true) none none,
            FormatSpan.mk ⟨1, 3⟩ none (some true) none]).insert 1
              [120]).format_spans) ∧
    ((∀ s ∈ (Buffer.mk [97, 98, 99]
          [FormatSpan.mk ⟨0, 1⟩ (some true) none none,
            FormatSpan.mk ⟨1, 3⟩ none (some true) none]).format_spans,
        s.range.start ≤ s.range.stop) ∧
      sortedByStart
        ((Buffer.mk [97, 98, 99]
          [FormatSpan.mk ⟨0, 1⟩ (some true) none none,
            FormatSpan.mk ⟨1, 3⟩ none (some true) none]).remove
              ⟨1, 2⟩).format_spans) :=
  ⟨⟨by decide, sorted_after_mutations.1 [] ⟨0, 2⟩ .bold (by decide)⟩,
   ⟨by decide, sorted_after_mutations.2.1 _ 1 [120] (by decide)⟩,
   ⟨by decide, sorted_after_mutations.2.2 _ ⟨1, 2⟩ (by decide) (by decide)⟩⟩
